import Mathlib

/-!
Verification of the codebuff agent-orchestration runtime specification.

The development shallowly embeds the repository's agent-validation entry
point (src/packages/internal/src/templates/agent-validation.ts) and, for
the orchestration runtime whose implementation is not part of the
source tree, models the runtime faithfully from the specification text:
status lifecycle, step loop, streaming tool-result ordering, spawn
checks, cost rollup and context pruning.
-/

namespace Codebuff

/-- Modelled from the spec: error taxonomy of §7 (the runtime's error kinds). -/
inductive ErrorKind where
  | ValidationError
  | TransientProviderError
  | BudgetExceededError
  | CancellationError
  | RecursionLimitError
deriving DecidableEq

/-- Modelled from the spec: agent status; transitions are Running to one of
the three terminal statuses. -/
inductive Status where
  | Running
  | Completed
  | Cancelled
  | Failed
deriving DecidableEq

/-- A status is terminal when it is Completed, Cancelled or Failed. -/
def Status.isTerminal : Status → Bool
  | Status.Running => false
  | Status.Completed => true
  | Status.Cancelled => true
  | Status.Failed => true

/-- Modelled from the spec: one turn of message history (§3 Message):
role/kind, content, system-instruction and critical marks, and the
message's contribution to the history size estimate. -/
structure Message where
  role : String
  content : String
  isSystem : Bool
  critical : Bool
  size : Nat
deriving DecidableEq

/-- Modelled from the spec: a tool call (tool name and raw input). -/
structure ToolCall where
  name : String
  input : String
deriving DecidableEq

/-- Modelled from the spec: a tool result is a success payload or a failure
marker with a taxonomy kind (§3 ToolResult, §7). -/
inductive ToolOutcome where
  | success (payload : String)
  | failure (kind : ErrorKind)
deriving DecidableEq

/-- Modelled from the spec: the tool registry visible to the dispatch path —
known tool names, an input validator and the executor (external
collaborator of §6, Tool Execution). -/
structure ToolRegistry where
  known : List String
  validInput : String → String → Bool
  execute : String → String → String

/-- Modelled from the spec: dispatch of one tool call (§4.2): an unknown
tool name or an input failing schema validation yields a ValidationError
result for that specific call; otherwise the tool executes. -/
def dispatchCall (reg : ToolRegistry) (c : ToolCall) : ToolOutcome :=
  if c.name ∈ reg.known then
    if reg.validInput c.name c.input then
      ToolOutcome.success (reg.execute c.name c.input)
    else ToolOutcome.failure ErrorKind.ValidationError
  else ToolOutcome.failure ErrorKind.ValidationError

/-- A call passes validation when its name is known and its input validates. -/
def callValid (reg : ToolRegistry) (c : ToolCall) : Bool :=
  decide (c.name ∈ reg.known) && reg.validInput c.name c.input

/-- Modelled from the spec: processing of all tool calls of one turn (§4.2):
every call is dispatched — a validation failure of one call never stops its
siblings — and the run's status is untouched (never escalated). -/
def processTurnCalls (reg : ToolRegistry) (calls : List ToolCall) (st : Status) :
    Status × List ToolOutcome :=
  (st, calls.map (dispatchCall reg))

end Codebuff

namespace Codebuff

/-- Result shape of the repository's validateAgents/validateAgentsWithSpawnableAgents:
templates, dynamicTemplates and validationErrors. -/
structure AgentValidationResult (T D E : Type) where
  templates : List (String × T)
  dynamicTemplates : List (String × D)
  validationErrors : List E
deriving DecidableEq

/-- Environment of validateAgentsWithSpawnableAgents: the three imported
helpers (collectAgentIds, validateSpawnableAgents, validateAgents) live
outside the source tree and are passed as parameters.
collectAgentIds returns (agentIds, spawnableAgentIds);
validateSpawnableAgents takes (spawnableAgents, dynamicAgentIds) and
returns the validationErrors list. -/
structure AgentValidationEnv (P T D E : Type) where
  collectAgentIds : P → List String × List String
  validateSpawnableAgents : List String → List String → List E
  validateAgents : P → AgentValidationResult T D E

/-- Embedding of validateAgentsWithSpawnableAgents
(src/packages/internal/src/templates/agent-validation.ts, lines 13-34):
collect agent ids, run the spawnable-agent check; when it reports errors,
return empty templates and dynamicTemplates with exactly those errors;
otherwise delegate to validateAgents. -/
def validateAgentsWithSpawnableAgents {P T D E : Type}
    (env : AgentValidationEnv P T D E) (params : P) : AgentValidationResult T D E :=
  let ids := env.collectAgentIds params
  let validationErrors := env.validateSpawnableAgents ids.2 ids.1
  if 0 < validationErrors.length then
    { templates := [], dynamicTemplates := [], validationErrors := validationErrors }
  else
    env.validateAgents params

end Codebuff

namespace Codebuff

/-- Modelled from the spec: a finished agent run seen as a tree — the
instance's direct cost and the runs of its children (§3 AgentInstance,
§4.5 Resource Accountant). -/
inductive AgentRun where
  | node (directCost : Nat) (children : List AgentRun)

/-- Direct cost of a run. -/
def AgentRun.directCost : AgentRun → Nat
  | AgentRun.node d _ => d

/-- Children of a run. -/
def AgentRun.children : AgentRun → List AgentRun
  | AgentRun.node _ cs => cs

mutual

/-- Modelled from the spec: rolled-up cost of a run — direct cost plus the
rolled-up costs of all children, transitively (§4.5). -/
def rolledUpCost : AgentRun → Nat
  | AgentRun.node d cs => d + rolledUpList cs

/-- Sum of rolled-up costs over a list of child runs. -/
def rolledUpList : List AgentRun → Nat
  | [] => 0
  | t :: ts => rolledUpCost t + rolledUpList ts

end

/-- Modelled from the spec: the parent's accountant applies child-completion
events one at a time, in the order the children happen to complete — each
event adds the finished child's rolled-up cost to the running total (§4.5,
single-writer-per-parent discipline of §5). -/
def applyCompletions (direct : Nat) (completionOrder : List AgentRun) : Nat :=
  completionOrder.foldl (fun acc c => acc + rolledUpCost c) direct

/-- Size estimate of a message history: the sum of the messages' sizes. -/
def sizeEstimate (h : List Message) : Nat := (h.map (fun m => m.size)).sum

/-- Modelled from the spec: the messages pruning must keep (§4.6) — the
original system-level instructions, every message explicitly marked
critical, and the most recent K messages; the predicate sees each message
with its position in a history of length n. -/
def keepMand (n K : Nat) (p : Nat × Message) : Bool :=
  p.2.isSystem || p.2.critical || decide (n ≤ p.1 + K)

/-- Sum of the sizes of indexed messages. -/
def pairsSize (l : List (Nat × Message)) : Nat := (l.map (fun p => p.2.size)).sum

/-- Modelled from the spec: selection pass of the pruning collaborator —
walking the indexed history newest-first, a mandatory message is always
kept, and a non-mandatory one is kept only while it fits the spare budget
(§4.6; pruning is lossy by contract). -/
def pruneSelect (q : Nat × Message → Bool) : List (Nat × Message) → Nat → List (Nat × Message)
  | [], _ => []
  | p :: rest, spare =>
    if q p then p :: pruneSelect q rest spare
    else if p.2.size ≤ spare then p :: pruneSelect q rest (spare - p.2.size)
    else pruneSelect q rest spare

/-- Total size of the mandatory messages of a history. -/
def mandSize (K : Nat) (h : List Message) : Nat :=
  pairsSize (h.enum.filter (keepMand h.length K))

/-- Modelled from the spec: the pruning collaborator (§4.6) — given
(history, budget) it returns a new, order-preserving sub-history that
keeps the mandatory messages and fills the remaining budget with the most
recent other messages; the history is replaced wholesale, never edited in
place. -/
def pruneHistory (B K : Nat) (h : List Message) : List Message :=
  let q := keepMand h.length K
  (pruneSelect q h.enum.reverse (B - mandSize K h)).reverse.map Prod.snd

/-- Modelled from the spec: one orchestration-script instruction (§4.3). -/
inductive Instr where
  | ExecuteTool (name input : String)
  | RunOneModelStep
  | RunUntilComplete
  | SetOutput (value : String)
deriving DecidableEq

/-- Modelled from the spec: the outcome of one model turn (§6 Model
Invocation) — the produced message, the tool calls it issued, and the
end-of-turn signal. -/
structure ModelTurn where
  message : Message
  toolCalls : List ToolCall
  endTurn : Bool

/-- Modelled from the spec: the collaborators and configuration the step
loop runs against — the model invocation, the tool registry, the context
budget with its keep-recent count (§4.6), and the maximum total cost
(§4.5). -/
structure LoopEnv where
  modelStep : List Message → ModelTurn
  registry : ToolRegistry
  contextBudget : Option Nat
  keepRecent : Nat
  maxTotalCost : Option Nat

/-- Modelled from the spec: an agent instance (§3 AgentInstance) — status,
remaining-step counter, message history, attached script continuation,
structured output, identity data, child list and cost counters. -/
structure InstanceState where
  templateId : String
  ancestors : List String
  status : Status
  stepsRemaining : Nat
  history : List Message
  script : List Instr
  output : Option String
  children : List String
  directCost : Nat
  rolledUpCost : Nat
deriving DecidableEq

/-- Modelled from the spec: the best available partial output used by the
graceful forced-completion path (§4.1a) — the stored structured output if
set, otherwise output derived from the last produced message. -/
def forcedOutput (s : InstanceState) : String :=
  match s.output with
  | some o => o
  | none =>
    match s.history.getLast? with
    | some m => m.content
    | none => ""

/-- A tool result rendered as a history message. -/
def toolResultMessage : ToolOutcome → Message
  | ToolOutcome.success payload => ⟨"tool", payload, false, false, payload.length⟩
  | ToolOutcome.failure _ => ⟨"tool", "error", false, false, 5⟩

/-- Modelled from the spec: whether the configured maximum total cost is
exceeded (§4.5). -/
def budgetExceeded (env : LoopEnv) (s : InstanceState) : Bool :=
  match env.maxTotalCost with
  | none => false
  | some c => decide (c ≤ s.rolledUpCost)

/-- Modelled from the spec: one model-driven step (§4.1c-d, §4.2) — invoke
the model on the history, append the produced message followed by the tool
results of the calls it issued (in issuance order), decrement the
remaining-step counter, account the model-call cost; the Bool is the
end-of-turn signal. -/
def modelDrivenStep (env : LoopEnv) (s : InstanceState) : InstanceState × Bool :=
  let turn := env.modelStep s.history
  let resultMsgs := turn.toolCalls.map (fun c => toolResultMessage (dispatchCall env.registry c))
  ({ s with
      history := s.history ++ (turn.message :: resultMsgs),
      stepsRemaining := s.stepsRemaining - 1,
      directCost := s.directCost + 1,
      rolledUpCost := s.rolledUpCost + 1 }, turn.endTurn)

/-- Modelled from the spec: the Context Window Manager trigger (§4.1b,
§4.6) — when a budget is configured and the history size estimate exceeds
it, the history is replaced by the pruned one. -/
def applyPrune (env : LoopEnv) (s : InstanceState) : InstanceState :=
  match env.contextBudget with
  | none => s
  | some b =>
    if b < sizeEstimate s.history then
      { s with history := pruneHistory b env.keepRecent s.history }
    else s

/-- Modelled from the spec: the body of one loop iteration after the budget
check and the context manager (§4.1c,e; §4.3): a pending script
instruction is interpreted, else one model-driven step runs, and an
end-of-turn signal outside a script completes the instance. -/
def loopStepCore (env : LoopEnv) (s1 : InstanceState) : InstanceState :=
  match s1.script with
  | Instr.ExecuteTool name input :: rest =>
    { s1 with
        script := rest,
        history := s1.history ++ [toolResultMessage (dispatchCall env.registry ⟨name, input⟩)] }
  | Instr.RunOneModelStep :: rest =>
    (modelDrivenStep env { s1 with script := rest }).1
  | Instr.RunUntilComplete :: rest =>
    let r := modelDrivenStep env s1
    if r.2 then { r.1 with script := rest } else r.1
  | Instr.SetOutput v :: rest =>
    { s1 with script := rest, output := some v }
  | [] =>
    let r := modelDrivenStep env s1
    if r.2 then { r.1 with status := Status.Completed, output := some (forcedOutput r.1) }
    else r.1

/-- Modelled from the spec: one iteration of the Step Loop Engine (§4.1):
(a) an exhausted step counter or an exceeded cost budget forces a graceful
transition to Completed with the best available partial output — never to
Failed; (b) otherwise the context manager runs and the iteration body is
executed. -/
def loopStep (env : LoopEnv) (s : InstanceState) : InstanceState :=
  if s.stepsRemaining = 0 || budgetExceeded env s then
    { s with status := Status.Completed, output := some (forcedOutput s) }
  else loopStepCore env (applyPrune env s)

/-- Modelled from the spec: the Step Loop Engine run as a trace — the state
after n iterations; an iteration runs only while the status is not
terminal (§4.1: the loop terminates on Completed, Cancelled or Failed). -/
def runLoop (env : LoopEnv) (s : InstanceState) : Nat → InstanceState
  | 0 => s
  | n + 1 =>
    let t := runLoop env s n
    if t.status.isTerminal then t else loopStep env t

/-- The loop enters a terminal status at iteration k: not terminal at k,
terminal at k+1. -/
def entersTerminalAt (env : LoopEnv) (s : InstanceState) (k : Nat) : Prop :=
  (runLoop env s k).status.isTerminal = false ∧
  (runLoop env s (k + 1)).status.isTerminal = true

end Codebuff

namespace Codebuff

/-- Modelled from the spec: a spawn request (§3 SpawnRequest) — target
template identity, prompt, and the discipline. -/
inductive SpawnDiscipline where
  | parallel
  | inline
deriving DecidableEq

/-- Modelled from the spec: a spawn request. -/
structure SpawnRequest where
  target : String
  prompt : String
  discipline : SpawnDiscipline
deriving DecidableEq

/-- Decision on a spawn request: rejected with an error kind, or accepted
with the new child's identity. -/
inductive SpawnDecision where
  | rejected (kind : ErrorKind)
  | accepted (childId : String)
deriving DecidableEq

/-- Modelled from the spec: the Spawn Coordinator's admission check (§4.4,
§7) — a request whose child would exceed the maximum ancestry depth, or
whose target equals the requester's own template or one of its ancestors
(a spawn cycle), is rejected immediately with RecursionLimitError and the
requesting instance is left untouched; otherwise the child's identity is
registered in the parent's child list. -/
def trySpawn (maxDepth : Nat) (parent : InstanceState) (req : SpawnRequest)
    (newChildId : String) : InstanceState × SpawnDecision :=
  if maxDepth < parent.ancestors.length + 1 ∨ req.target = parent.templateId ∨
      req.target ∈ parent.ancestors then
    (parent, SpawnDecision.rejected ErrorKind.RecursionLimitError)
  else
    ({ parent with children := parent.children ++ [newChildId] },
      SpawnDecision.accepted newChildId)

/-- Modelled from the spec: inline spawn (§4.4) — the child shares the
parent's message-history container: the child's loop starts on the
parent's history and runs synchronously to its fuel bound; the parent's
history afterwards is exactly the child's final history, with no separate
buffer and no tool-result indirection. -/
def spawnInline (cenv : LoopEnv) (fuel : Nat) (parent child0 : InstanceState) :
    InstanceState × Status :=
  let child := { child0 with history := parent.history }
  let cf := runLoop cenv child fuel
  ({ parent with history := cf.history }, cf.status)

/-- The messages an inline child appended to the parent's shared history. -/
def inlineAppended (cenv : LoopEnv) (fuel : Nat) (parent child0 : InstanceState) :
    List Message :=
  (runLoop cenv { child0 with history := parent.history } fuel).history.drop
    parent.history.length

end Codebuff

namespace Codebuff

/-- Modelled from the spec: the result buffer of the Streaming Tool-Call
Processor (§4.2) — completed results keyed by issuance index, the next
issuance index to flush, and the results already appended to history. -/
structure FlushState (R : Type) where
  buffer : List (Nat × R)
  nextIdx : Nat
  appended : List R
deriving DecidableEq

/-- Look up the buffered result of issuance index i. -/
def lookupIdx {R : Type} (buffer : List (Nat × R)) (i : Nat) : Option R :=
  match buffer.find? (fun p => decide (p.1 = i)) with
  | some p => some p.2
  | none => none

/-- Modelled from the spec: the flush pass (§4.2) — starting at the next
issuance index, results are flushed while consecutively present in the
buffer; the fuel bounds the walk by the buffer size. -/
def flushFrom {R : Type} (buffer : List (Nat × R)) : Nat → Nat → List R
  | _, 0 => []
  | i, fuel + 1 =>
    match lookupIdx buffer i with
    | none => []
    | some r => r :: flushFrom buffer (i + 1) fuel

/-- Modelled from the spec: handling of one execution-completion event
(§4.2) — the result is buffered under its issuance index, then the buffer
is flushed in issuance-index order onto the appended list. -/
def onComplete {R : Type} (s : FlushState R) (c : Nat × R) : FlushState R :=
  { buffer := c :: s.buffer,
    nextIdx :=
      s.nextIdx + (flushFrom (c :: s.buffer) s.nextIdx (c :: s.buffer).length).length,
    appended :=
      s.appended ++ flushFrom (c :: s.buffer) s.nextIdx (c :: s.buffer).length }

/-- Modelled from the spec: processing a whole sequence of completion
events, in the order the executions actually finished, starting from the
empty buffer. -/
def runFlush {R : Type} (completions : List (Nat × R)) : FlushState R :=
  completions.foldl onComplete ⟨[], 0, []⟩

/-- Invariant of the result buffer: after the completions of the index set
done have been processed, the buffer holds exactly their results, the next
issuance index to flush is the least index not yet completed, and the
appended list holds the results of all indices below it, in issuance
order. -/
def FlushInv {R : Type} (results : Nat → R) (done : List Nat) (s : FlushState R) : Prop :=
  s.buffer = done.map (fun i => (i, results i)) ∧
  (∀ m, m < s.nextIdx → m ∈ done) ∧
  s.nextIdx ∉ done ∧
  s.appended = (List.range s.nextIdx).map results

end Codebuff

namespace Codebuff

/-- A sample tool registry with one known tool. -/
def sampleReg : ToolRegistry :=
  { known := ["echo"], validInput := fun _ _ => true, execute := fun _ i => i }

/-- Loop environment of the spec's step-exhaustion scenario (§8): the model
produces one message per step (its content records the history length) and
never signals end-of-turn; no context budget, no cost budget. -/
def scenarioEnv : LoopEnv :=
  { modelStep := fun h =>
      { message := ⟨"assistant", toString h.length, false, false, 1⟩,
        toolCalls := [], endTurn := false },
    registry := sampleReg,
    contextBudget := none,
    keepRecent := 2,
    maxTotalCost := none }

/-- Initial instance of the spec's step-exhaustion scenario: maxAgentSteps
is 5 and the attached script issues RunUntilComplete. -/
def scenarioInit : InstanceState :=
  { templateId := "root", ancestors := [], status := Status.Running,
    stepsRemaining := 5, history := [], script := [Instr.RunUntilComplete],
    output := none, children := [], directCost := 0, rolledUpCost := 0 }

/-- A running instance whose remaining-step counter is already 0. -/
def initZero : InstanceState :=
  { scenarioInit with stepsRemaining := 0 }

/-- Message constructor shorthand for the samples. -/
def mkMsg (content : String) (sys crit : Bool) (sz : Nat) : Message :=
  ⟨"r", content, sys, crit, sz⟩

/-- A sample history: system instructions, two large prunable messages, one
critical message and one recent message. -/
def sampleHistory : List Message :=
  [mkMsg "sys" true false 2, mkMsg "a" false false 5, mkMsg "crit" false true 2,
    mkMsg "b" false false 5, mkMsg "recent" false false 1]

/-- A sample parent instance for the inline-spawn scenario. -/
def sampleParent : InstanceState :=
  { templateId := "parent", ancestors := [], status := Status.Running,
    stepsRemaining := 4, history := [mkMsg "p1" true false 1, mkMsg "p2" false false 1],
    script := [], output := none, children := [], directCost := 0, rolledUpCost := 0 }

/-- A sample child instance for the inline-spawn scenario: one scripted
step then one model step. -/
def sampleChild : InstanceState :=
  { templateId := "child", ancestors := ["parent"], status := Status.Running,
    stepsRemaining := 2, history := [], script := [Instr.ExecuteTool "echo" "hi"],
    output := none, children := [], directCost := 0, rolledUpCost := 0 }

/-- A sample environment for the agent-validation entry point: params 0
reference an unknown spawnable agent, params 1 are well-formed. -/
def sampleValEnv : AgentValidationEnv Nat Nat Nat String :=
  { collectAgentIds := fun p => if p = 0 then (["a"], ["ghost"]) else (["a"], ["a"]),
    validateSpawnableAgents := fun spawnable dyn =>
      (spawnable.filter (fun x => !(dyn.contains x))).map
        (fun x => String.append "unknown agent " x),
    validateAgents := fun p => ⟨[("tmpl", p)], [("dyn", p)], []⟩ }

end Codebuff

namespace Codebuff

theorem rolledUpList_eq (cs : List AgentRun) :
    rolledUpList cs = (cs.map rolledUpCost).sum := by
  induction cs with
  | nil => simp [rolledUpList]
  | cons t ts ih => simp [rolledUpList, ih]

theorem rolledUpCost_node (t : AgentRun) :
    rolledUpCost t = t.directCost + (t.children.map rolledUpCost).sum := by
  cases t with
  | node d cs => simp [rolledUpCost, rolledUpList_eq, AgentRun.directCost, AgentRun.children]

theorem applyCompletions_eq (d : Nat) (l : List AgentRun) :
    applyCompletions d l = d + (l.map rolledUpCost).sum := by
  induction l generalizing d with
  | nil => simp [applyCompletions]
  | cons c cs ih =>
    simp only [applyCompletions, List.foldl_cons] at *
    rw [ih (d + rolledUpCost c)]
    simp [List.sum_cons]
    omega

/-- C1: for every agent run, applying the children's completion events in
any completion order yields the rolled-up cost; the rolled-up cost equals
the direct cost plus the sum of the children's rolled-up costs,
transitively; and the rolled-up cost is at least the direct cost. -/
theorem rollup_cost_invariant (t : AgentRun) (order : List AgentRun)
    (h : order.Perm t.children) :
    applyCompletions t.directCost order = rolledUpCost t ∧
    rolledUpCost t = t.directCost + (t.children.map rolledUpCost).sum ∧
    t.directCost ≤ rolledUpCost t := by
  have h2 := rolledUpCost_node t
  refine ⟨?_, h2, ?_⟩
  · rw [applyCompletions_eq, h2, (h.map rolledUpCost).sum_eq]
  · rw [h2]; exact Nat.le_add_right _ _

/-- Witness for C1: the spec's scenario — two siblings of rolled-up costs 5
and 7 finish in either order; the parent with direct cost 2 rolls up to
2 + 12. -/
theorem rollup_cost_invariant_witness :
    ([AgentRun.node 7 [], AgentRun.node 5 []].Perm
      (AgentRun.node 2 [AgentRun.node 5 [], AgentRun.node 7 []]).children) ∧
    applyCompletions
        (AgentRun.node 2 [AgentRun.node 5 [], AgentRun.node 7 []]).directCost
        [AgentRun.node 7 [], AgentRun.node 5 []] =
      rolledUpCost (AgentRun.node 2 [AgentRun.node 5 [], AgentRun.node 7 []]) := by
  have hp : ([AgentRun.node 7 [], AgentRun.node 5 []].Perm
      (AgentRun.node 2 [AgentRun.node 5 [], AgentRun.node 7 []]).children) :=
    List.Perm.swap (AgentRun.node 5 []) (AgentRun.node 7 []) []
  exact ⟨hp, (rollup_cost_invariant _ _ hp).1⟩

end Codebuff

namespace Codebuff

/-- C9: when the spawnable-agent check reports errors, the entry point
returns empty templates and dynamicTemplates with exactly that error list,
and validateAgents is never consulted — the result is the same for every
possible validateAgents. -/
theorem spawnable_errors_short_circuit {P T D E : Type}
    (env : AgentValidationEnv P T D E) (params : P)
    (h : env.validateSpawnableAgents (env.collectAgentIds params).2
        (env.collectAgentIds params).1 ≠ []) :
    validateAgentsWithSpawnableAgents env params =
      { templates := [], dynamicTemplates := [],
        validationErrors :=
          env.validateSpawnableAgents (env.collectAgentIds params).2
            (env.collectAgentIds params).1 } ∧
    ∀ va : P → AgentValidationResult T D E,
      validateAgentsWithSpawnableAgents { env with validateAgents := va } params =
        validateAgentsWithSpawnableAgents env params := by
  have hlen : 0 < (env.validateSpawnableAgents (env.collectAgentIds params).2
      (env.collectAgentIds params).1).length := List.length_pos.mpr h
  constructor
  · simp [validateAgentsWithSpawnableAgents, hlen]
  · intro va
    simp [validateAgentsWithSpawnableAgents, hlen]

/-- Witness for C9: concrete params referencing an unknown spawnable agent:
the error list is returned verbatim with empty templates, and replacing
validateAgents does not change the result. -/
theorem spawnable_errors_short_circuit_witness :
    (sampleValEnv.validateSpawnableAgents (sampleValEnv.collectAgentIds 0).2
        (sampleValEnv.collectAgentIds 0).1 ≠ []) ∧
    validateAgentsWithSpawnableAgents sampleValEnv 0 =
      { templates := [], dynamicTemplates := [],
        validationErrors := ["unknown agent ghost"] } ∧
    validateAgentsWithSpawnableAgents
        { sampleValEnv with validateAgents := fun _ => ⟨[], [], []⟩ } 0 =
      validateAgentsWithSpawnableAgents sampleValEnv 0 := by
  have h : sampleValEnv.validateSpawnableAgents (sampleValEnv.collectAgentIds 0).2
      (sampleValEnv.collectAgentIds 0).1 ≠ [] := by decide
  refine ⟨h, ?_, (spawnable_errors_short_circuit sampleValEnv 0 h).2 _⟩
  rw [(spawnable_errors_short_circuit sampleValEnv 0 h).1]
  decide

/-- C10: when the spawnable-agent check reports no errors, the entry point
returns exactly the result of validateAgents. -/
theorem spawnable_ok_delegates {P T D E : Type}
    (env : AgentValidationEnv P T D E) (params : P)
    (h : env.validateSpawnableAgents (env.collectAgentIds params).2
        (env.collectAgentIds params).1 = []) :
    validateAgentsWithSpawnableAgents env params = env.validateAgents params := by
  simp [validateAgentsWithSpawnableAgents, h]

/-- Witness for C10: concrete well-formed params: the entry point returns
the validateAgents result unchanged. -/
theorem spawnable_ok_delegates_witness :
    (sampleValEnv.validateSpawnableAgents (sampleValEnv.collectAgentIds 1).2
        (sampleValEnv.collectAgentIds 1).1 = []) ∧
    validateAgentsWithSpawnableAgents sampleValEnv 1 = sampleValEnv.validateAgents 1 :=
  ⟨by decide, spawnable_ok_delegates sampleValEnv 1 (by decide)⟩

end Codebuff

namespace Codebuff

theorem dispatchCall_invalid (reg : ToolRegistry) (c : ToolCall)
    (h : callValid reg c = false) :
    dispatchCall reg c = ToolOutcome.failure ErrorKind.ValidationError := by
  unfold callValid at h
  by_cases hm : c.name ∈ reg.known
  · simp [hm] at h
    simp [dispatchCall, hm, h]
  · simp [dispatchCall, hm]

theorem dispatchCall_valid (reg : ToolRegistry) (c : ToolCall)
    (h : callValid reg c = true) :
    dispatchCall reg c = ToolOutcome.success (reg.execute c.name c.input) := by
  unfold callValid at h
  simp only [Bool.and_eq_true, decide_eq_true_eq] at h
  simp [dispatchCall, h.1, h.2]

/-- C5: in a turn with several tool calls, a call with an unknown tool name
or invalid input gets a ValidationError result at its own issuance
position, every valid sibling call of the same turn still executes to its
own result, and the turn never escalates the failure — the status is
unchanged. -/
theorem validation_error_isolated_per_call (reg : ToolRegistry)
    (calls : List ToolCall) (st : Status) (i : Nat) (c : ToolCall)
    (hi : calls[i]? = some c) (hbad : callValid reg c = false) :
    ((processTurnCalls reg calls st).2)[i]? =
      some (ToolOutcome.failure ErrorKind.ValidationError) ∧
    (∀ (j : Nat) (d : ToolCall), calls[j]? = some d → callValid reg d = true →
      ((processTurnCalls reg calls st).2)[j]? =
        some (ToolOutcome.success (reg.execute d.name d.input))) ∧
    (processTurnCalls reg calls st).1 = st := by
  refine ⟨?_, ?_, rfl⟩
  · show (calls.map (dispatchCall reg))[i]? =
      some (ToolOutcome.failure ErrorKind.ValidationError)
    rw [List.getElem?_map, hi]
    simp [dispatchCall_invalid reg c hbad]
  · intro j d hj hgood
    show (calls.map (dispatchCall reg))[j]? =
      some (ToolOutcome.success (reg.execute d.name d.input))
    rw [List.getElem?_map, hj]
    simp [dispatchCall_valid reg d hgood]

/-- Witness for C5: a turn of three calls where the middle call names an
unknown tool: it alone fails with ValidationError, the two sibling calls
still execute, and the running status is preserved. -/
theorem validation_error_isolated_per_call_witness :
    ([⟨"echo", "x"⟩, ⟨"nope", "y"⟩, ⟨"echo", "z"⟩] : List ToolCall)[1]? =
      some ⟨"nope", "y"⟩ ∧
    callValid sampleReg ⟨"nope", "y"⟩ = false ∧
    ((processTurnCalls sampleReg [⟨"echo", "x"⟩, ⟨"nope", "y"⟩, ⟨"echo", "z"⟩]
        Status.Running).2)[1]? =
      some (ToolOutcome.failure ErrorKind.ValidationError) ∧
    ((processTurnCalls sampleReg [⟨"echo", "x"⟩, ⟨"nope", "y"⟩, ⟨"echo", "z"⟩]
        Status.Running).2)[2]? = some (ToolOutcome.success "z") ∧
    (processTurnCalls sampleReg [⟨"echo", "x"⟩, ⟨"nope", "y"⟩, ⟨"echo", "z"⟩]
        Status.Running).1 = Status.Running := by
  have h := validation_error_isolated_per_call sampleReg
    [⟨"echo", "x"⟩, ⟨"nope", "y"⟩, ⟨"echo", "z"⟩] Status.Running 1 ⟨"nope", "y"⟩
    (by decide) (by decide)
  exact ⟨by decide, by decide, h.1, h.2.1 2 ⟨"echo", "z"⟩ (by decide) (by decide), h.2.2⟩

/-- C6: a spawn request whose child would exceed the maximum ancestry depth
or create a spawn cycle is rejected with RecursionLimitError, and the
requesting instance is returned entirely unchanged — same status, history,
counters and child list — so it continues running. -/
theorem spawn_recursion_limit_rejected (maxDepth : Nat) (parent : InstanceState)
    (req : SpawnRequest) (cid : String)
    (h : maxDepth < parent.ancestors.length + 1 ∨ req.target = parent.templateId ∨
      req.target ∈ parent.ancestors) :
    trySpawn maxDepth parent req cid =
      (parent, SpawnDecision.rejected ErrorKind.RecursionLimitError) ∧
    (trySpawn maxDepth parent req cid).1.status = parent.status ∧
    (trySpawn maxDepth parent req cid).1.history = parent.history ∧
    (trySpawn maxDepth parent req cid).1.stepsRemaining = parent.stepsRemaining ∧
    (trySpawn maxDepth parent req cid).1.children = parent.children := by
  have heq : trySpawn maxDepth parent req cid =
      (parent, SpawnDecision.rejected ErrorKind.RecursionLimitError) := by
    unfold trySpawn
    rw [if_pos h]
  exact ⟨heq, by rw [heq], by rw [heq], by rw [heq], by rw [heq]⟩

/-- Witness for C6: a parallel spawn request two ancestors deep against a
depth limit of 2 is rejected and the parent is unchanged. -/
theorem spawn_recursion_limit_rejected_witness :
    (2 < (({ sampleParent with ancestors := ["a", "b"] } : InstanceState)).ancestors.length + 1 ∨
      ("x" : String) = ({ sampleParent with ancestors := ["a", "b"] } : InstanceState).templateId ∨
      ("x" : String) ∈ ({ sampleParent with ancestors := ["a", "b"] } : InstanceState).ancestors) ∧
    trySpawn 2 { sampleParent with ancestors := ["a", "b"] }
        ⟨"x", "go", SpawnDiscipline.parallel⟩ "c1" =
      ({ sampleParent with ancestors := ["a", "b"] },
        SpawnDecision.rejected ErrorKind.RecursionLimitError) := by
  have h : 2 < (({ sampleParent with ancestors := ["a", "b"] } : InstanceState)).ancestors.length + 1 ∨
      ("x" : String) = ({ sampleParent with ancestors := ["a", "b"] } : InstanceState).templateId ∨
      ("x" : String) ∈ ({ sampleParent with ancestors := ["a", "b"] } : InstanceState).ancestors :=
    Or.inl (by decide)
  exact ⟨h, (spawn_recursion_limit_rejected 2 _ ⟨"x", "go", SpawnDiscipline.parallel⟩ "c1" h).1⟩

end Codebuff

namespace Codebuff

theorem Status.eq_running_of_not_terminal {st : Status}
    (h : st.isTerminal = false) : st = Status.Running := by
  cases st <;> simp [Status.isTerminal] at h ⊢

theorem runLoop_frozen (env : LoopEnv) (s : InstanceState) {n : Nat}
    (h : (runLoop env s n).status.isTerminal = true) :
    ∀ m, n ≤ m → runLoop env s m = runLoop env s n := by
  intro m hnm
  induction m, hnm using Nat.le_induction with
  | base => rfl
  | succ m hnm ih =>
    show (if (runLoop env s m).status.isTerminal then runLoop env s m
      else loopStep env (runLoop env s m)) = runLoop env s n
    rw [ih, if_pos h]

/-- C2: a terminal status is entered at most once: once the loop trace is
terminal it is frozen — no further step executes; any status change in the
trace starts from Running; and the trace enters a terminal status at most
one index. -/
theorem terminal_status_once (env : LoopEnv) (s : InstanceState) :
    (∀ n m, n ≤ m → (runLoop env s n).status.isTerminal = true →
      runLoop env s m = runLoop env s n) ∧
    (∀ n, (runLoop env s (n + 1)).status ≠ (runLoop env s n).status →
      (runLoop env s n).status = Status.Running) ∧
    (∀ n m, n < m → entersTerminalAt env s n → ¬ entersTerminalAt env s m) := by
  refine ⟨fun n m hnm h => runLoop_frozen env s h m hnm, ?_, ?_⟩
  · intro n hne
    cases hterm : (runLoop env s n).status.isTerminal with
    | true =>
      exact absurd (congrArg InstanceState.status
        (runLoop_frozen env s hterm (n + 1) (Nat.le_succ n))) hne
    | false => exact Status.eq_running_of_not_terminal hterm
  · rintro n m hnm ⟨_, hn2⟩ ⟨hm1, _⟩
    have hfr := runLoop_frozen env s hn2 m hnm
    rw [hfr] at hm1
    rw [hn2] at hm1
    exact Bool.noConfusion hm1

/-- Witness for C2: a concrete run that is terminal after one iteration
stays frozen at later iterations and never enters a terminal status a
second time. -/
theorem terminal_status_once_witness :
    (runLoop scenarioEnv initZero 1).status.isTerminal = true ∧
    runLoop scenarioEnv initZero 3 = runLoop scenarioEnv initZero 1 ∧
    ¬ entersTerminalAt scenarioEnv initZero 2 := by
  refine ⟨by decide, ?_, ?_⟩
  · exact (terminal_status_once scenarioEnv initZero).1 1 3 (by omega) (by decide)
  · exact (terminal_status_once scenarioEnv initZero).2.2 0 2 (by omega)
      ⟨by decide, by decide⟩

/-- C4: an instance whose remaining-step counter is 0 or whose cost budget
is exceeded is transitioned by the loop to Completed — never Failed — with
the best available partial output; in particular, in the scenario with
maxAgentSteps 5 and a RunUntilComplete script whose model never signals
end-of-turn, the run completes after the 5 model-driven steps with output
derived from the last produced message (the fifth message, content "4"). -/
theorem budget_exhaustion_graceful_completion (env : LoopEnv) (s : InstanceState)
    (h : s.stepsRemaining = 0 ∨ budgetExceeded env s = true) :
    (loopStep env s).status = Status.Completed ∧
    (loopStep env s).status ≠ Status.Failed ∧
    (loopStep env s).output = some (forcedOutput s) ∧
    (runLoop scenarioEnv scenarioInit 6).status = Status.Completed ∧
    (runLoop scenarioEnv scenarioInit 6).output = some "4" ∧
    (runLoop scenarioEnv scenarioInit 6).status ≠ Status.Failed := by
  have hstep : loopStep env s =
      { s with status := Status.Completed, output := some (forcedOutput s) } := by
    rcases h with h | h <;> simp [loopStep, h]
  rw [hstep]
  refine ⟨rfl, ?_, rfl, by decide, by decide, by decide⟩
  show Status.Completed ≠ Status.Failed
  decide

/-- Witness for C4: the step-exhausted instance completes gracefully with
the best available partial output. -/
theorem budget_exhaustion_graceful_completion_witness :
    (initZero.stepsRemaining = 0 ∨ budgetExceeded scenarioEnv initZero = true) ∧
    (loopStep scenarioEnv initZero).status = Status.Completed ∧
    (loopStep scenarioEnv initZero).output = some (forcedOutput initZero) := by
  refine ⟨Or.inl (by decide), ?_, ?_⟩
  · exact (budget_exhaustion_graceful_completion scenarioEnv initZero
      (Or.inl (by decide))).1
  · exact (budget_exhaustion_graceful_completion scenarioEnv initZero
      (Or.inl (by decide))).2.2.1

end Codebuff

namespace Codebuff

theorem pairsSize_cons (p : Nat × Message) (l : List (Nat × Message)) :
    pairsSize (p :: l) = p.2.size + pairsSize l := by
  simp [pairsSize]

theorem pruneSelect_size (q : Nat × Message → Bool) :
    ∀ (l : List (Nat × Message)) (spare : Nat),
    pairsSize (pruneSelect q l spare) ≤ pairsSize (l.filter q) + spare := by
  intro l
  induction l with
  | nil => intro spare; simp [pruneSelect, pairsSize]
  | cons p rest ih =>
    intro spare
    by_cases hq : q p
    · rw [List.filter_cons_of_pos hq]
      simp only [pruneSelect, if_pos hq, pairsSize_cons]
      have := ih spare
      omega
    · rw [List.filter_cons_of_neg hq]
      simp only [pruneSelect, if_neg hq]
      by_cases hsz : p.2.size ≤ spare
      · rw [if_pos hsz, pairsSize_cons]
        have := ih (spare - p.2.size)
        omega
      · rw [if_neg hsz]
        exact ih spare

theorem pruneSelect_keeps (q : Nat × Message → Bool) :
    ∀ (l : List (Nat × Message)) (spare : Nat) (p : Nat × Message),
    p ∈ l → q p = true → p ∈ pruneSelect q l spare := by
  intro l
  induction l with
  | nil => intro spare p hp; cases hp
  | cons a rest ih =>
    intro spare p hp hq
    rcases List.mem_cons.mp hp with rfl | hmem
    · simp [pruneSelect, hq]
    · by_cases ha : q a
      · simp only [pruneSelect, if_pos ha]
        exact List.mem_cons_of_mem a (ih spare p hmem hq)
      · simp only [pruneSelect, if_neg ha]
        by_cases hsz : a.2.size ≤ spare
        · rw [if_pos hsz]
          exact List.mem_cons_of_mem a (ih (spare - a.2.size) p hmem hq)
        · rw [if_neg hsz]
          exact ih spare p hmem hq

theorem pruneSelect_sublist (q : Nat × Message → Bool) :
    ∀ (l : List (Nat × Message)) (spare : Nat),
    (pruneSelect q l spare).Sublist l := by
  intro l
  induction l with
  | nil => intro spare; simp [pruneSelect]
  | cons a rest ih =>
    intro spare
    by_cases ha : q a
    · simp only [pruneSelect, if_pos ha]
      exact List.Sublist.cons₂ a (ih spare)
    · simp only [pruneSelect, if_neg ha]
      by_cases hsz : a.2.size ≤ spare
      · rw [if_pos hsz]
        exact List.Sublist.cons₂ a (ih (spare - a.2.size))
      · rw [if_neg hsz]
        exact List.Sublist.cons a (ih spare)

theorem pairsSize_snd (l : List (Nat × Message)) :
    sizeEstimate (l.map Prod.snd) = pairsSize l := by
  simp [sizeEstimate, pairsSize, List.map_map]
  rfl

theorem pairsSize_reverse (l : List (Nat × Message)) :
    pairsSize l.reverse = pairsSize l := by
  simp [pairsSize, List.sum_reverse]

/-- C7: for a history whose size estimate exceeds the budget B, provided
the mandatory messages (system instructions, critical marks, last K) fit
within B, pruning returns a history of estimated size at most B that still
contains every system-level, critical and recent-K message, and the result
is an order-preserving subsequence of the original — messages are never
edited in place. -/
theorem prune_contract_holds (B K : Nat) (h : List Message)
    (hover : B < sizeEstimate h) (hfit : mandSize K h ≤ B) :
    sizeEstimate (pruneHistory B K h) ≤ B ∧
    (∀ p ∈ h.enum, (p.2.isSystem = true ∨ p.2.critical = true ∨ h.length ≤ p.1 + K) →
      p.2 ∈ pruneHistory B K h) ∧
    (pruneHistory B K h).Sublist h := by
  refine ⟨?_, ?_, ?_⟩
  · show sizeEstimate ((pruneSelect (keepMand h.length K) h.enum.reverse
      (B - mandSize K h)).reverse.map Prod.snd) ≤ B
    rw [pairsSize_snd, pairsSize_reverse]
    have h1 := pruneSelect_size (keepMand h.length K) h.enum.reverse (B - mandSize K h)
    have h2 : pairsSize (h.enum.reverse.filter (keepMand h.length K)) = mandSize K h := by
      rw [List.filter_reverse, pairsSize_reverse, mandSize]
    rw [h2] at h1
    omega
  · intro p hp hmand
    have hq : keepMand h.length K p = true := by
      simp only [keepMand, Bool.or_eq_true, decide_eq_true_eq]
      tauto
    have hsel := pruneSelect_keeps (keepMand h.length K) h.enum.reverse
      (B - mandSize K h) p (List.mem_reverse.mpr hp) hq
    show p.2 ∈ (pruneSelect (keepMand h.length K) h.enum.reverse
      (B - mandSize K h)).reverse.map Prod.snd
    exact List.mem_map_of_mem Prod.snd (List.mem_reverse.mpr hsel)
  · have h1 := (pruneSelect_sublist (keepMand h.length K) h.enum.reverse
      (B - mandSize K h)).reverse
    rw [List.reverse_reverse] at h1
    have h2 := h1.map Prod.snd
    rw [List.enum_map_snd] at h2
    exact h2

/-- Witness for C7: the sample history of size 15 pruned to budget 6 with
K = 1: the result fits the budget. -/
theorem prune_contract_holds_witness :
    6 < sizeEstimate sampleHistory ∧
    mandSize 1 sampleHistory ≤ 6 ∧
    sizeEstimate (pruneHistory 6 1 sampleHistory) ≤ 6 := by
  refine ⟨by decide, by decide, ?_⟩
  exact (prune_contract_holds 6 1 sampleHistory (by decide) (by decide)).1

end Codebuff

namespace Codebuff

theorem loopStepCore_history (env : LoopEnv) (s1 : InstanceState) :
    ∃ t, (loopStepCore env s1).history = s1.history ++ t := by
  rcases hs : s1.script with _ | ⟨i, rest⟩
  · refine ⟨(env.modelStep s1.history).message ::
      (env.modelStep s1.history).toolCalls.map
        (fun c => toolResultMessage (dispatchCall env.registry c)), ?_⟩
    simp only [loopStepCore, hs]
    split <;> rfl
  · cases i with
    | ExecuteTool name input =>
      refine ⟨[toolResultMessage (dispatchCall env.registry ⟨name, input⟩)], ?_⟩
      simp only [loopStepCore, hs]
    | RunOneModelStep =>
      refine ⟨(env.modelStep s1.history).message ::
        (env.modelStep s1.history).toolCalls.map
          (fun c => toolResultMessage (dispatchCall env.registry c)), ?_⟩
      simp only [loopStepCore, hs]
      rfl
    | RunUntilComplete =>
      refine ⟨(env.modelStep s1.history).message ::
        (env.modelStep s1.history).toolCalls.map
          (fun c => toolResultMessage (dispatchCall env.registry c)), ?_⟩
      simp only [loopStepCore, hs]
      split <;> rfl
    | SetOutput v =>
      refine ⟨[], ?_⟩
      simp only [loopStepCore, hs]
      simp

theorem loopStep_history (env : LoopEnv) (s : InstanceState)
    (hb : env.contextBudget = none) :
    ∃ t, (loopStep env s).history = s.history ++ t := by
  have hp : applyPrune env s = s := by simp [applyPrune, hb]
  by_cases hc : (s.stepsRemaining = 0 || budgetExceeded env s) = true
  · refine ⟨[], ?_⟩
    simp [loopStep, hc]
  · have hcf : (s.stepsRemaining = 0 || budgetExceeded env s) = false :=
      Bool.eq_false_iff.mpr hc
    obtain ⟨t, ht⟩ := loopStepCore_history env s
    refine ⟨t, ?_⟩
    rw [loopStep, if_neg ?_, hp]
    · exact ht
    · simp [hcf]

theorem runLoop_history (env : LoopEnv) (s : InstanceState)
    (hb : env.contextBudget = none) :
    ∀ n, ∃ t, (runLoop env s n).history = s.history ++ t := by
  intro n
  induction n with
  | zero => exact ⟨[], by simp [runLoop]⟩
  | succ n ih =>
    obtain ⟨t1, h1⟩ := ih
    show ∃ t, (if (runLoop env s n).status.isTerminal then runLoop env s n
      else loopStep env (runLoop env s n)).history = s.history ++ t
    by_cases hterm : (runLoop env s n).status.isTerminal
    · rw [if_pos hterm]
      exact ⟨t1, h1⟩
    · rw [if_neg hterm]
      obtain ⟨t2, h2⟩ := loopStep_history env (runLoop env s n) hb
      exact ⟨t1 ++ t2, by rw [h2, h1, List.append_assoc]⟩

/-- C8: an inline spawn of a child inside a parent (with pruning disabled
during the inline run) leaves the parent's history equal to its history
before the spawn extended exactly by the messages the child appended, so
the lengths add up; there is no separate history buffer for the child. -/
theorem inline_spawn_extends_parent_history (cenv : LoopEnv) (fuel : Nat)
    (parent child0 : InstanceState) (hb : cenv.contextBudget = none) :
    (spawnInline cenv fuel parent child0).1.history =
      parent.history ++ inlineAppended cenv fuel parent child0 ∧
    (spawnInline cenv fuel parent child0).1.history.length =
      parent.history.length + (inlineAppended cenv fuel parent child0).length := by
  obtain ⟨t, ht⟩ := runLoop_history cenv { child0 with history := parent.history } hb fuel
  have hh : ({ child0 with history := parent.history } : InstanceState).history =
      parent.history := rfl
  rw [hh] at ht
  have h1 : (spawnInline cenv fuel parent child0).1.history =
      (runLoop cenv { child0 with history := parent.history } fuel).history := rfl
  have h2 : inlineAppended cenv fuel parent child0 = t := by
    unfold inlineAppended
    rw [ht, List.drop_left]
  rw [h1, h2, ht]
  exact ⟨rfl, by simp⟩

/-- Witness for C8: a concrete inline spawn — the parent history is
extended exactly by what the child appended. -/
theorem inline_spawn_extends_parent_history_witness :
    scenarioEnv.contextBudget = none ∧
    (spawnInline scenarioEnv 2 sampleParent sampleChild).1.history =
      sampleParent.history ++ inlineAppended scenarioEnv 2 sampleParent sampleChild ∧
    (spawnInline scenarioEnv 2 sampleParent sampleChild).1.history.length =
      sampleParent.history.length +
        (inlineAppended scenarioEnv 2 sampleParent sampleChild).length := by
  have h := inline_spawn_extends_parent_history scenarioEnv 2 sampleParent sampleChild rfl
  exact ⟨rfl, h.1, h.2⟩

end Codebuff

namespace Codebuff

theorem lookupIdx_cons {R : Type} (p : Nat × R) (l : List (Nat × R)) (m : Nat) :
    lookupIdx (p :: l) m = if p.1 = m then some p.2 else lookupIdx l m := by
  unfold lookupIdx
  by_cases h : p.1 = m
  · rw [List.find?_cons_of_pos _ (by simp [h]), if_pos h]
  · rw [List.find?_cons_of_neg _ (by simp [h]), if_neg h]

theorem lookupIdx_map {R : Type} (results : Nat → R) (done : List Nat) (m : Nat) :
    lookupIdx (done.map (fun i => (i, results i))) m =
      if m ∈ done then some (results m) else none := by
  induction done with
  | nil => simp [lookupIdx]
  | cons j rest ih =>
    rw [List.map_cons, lookupIdx_cons]
    by_cases hjm : j = m
    · subst hjm
      simp
    · rw [if_neg hjm, ih]
      by_cases hm : m ∈ rest
      · simp [hm, List.mem_cons]
      · have hmj : ¬(m = j) := fun hc => hjm hc.symm
        simp [hm, List.mem_cons, hmj]

theorem flushFrom_run {R : Type} (results : Nat → R) (done : List Nat) :
    ∀ (k i fuel : Nat), k ≤ fuel →
      (∀ m, m < k → (i + m) ∈ done) → (i + k) ∉ done →
      flushFrom (done.map (fun j => (j, results j))) i fuel =
        (List.range' i k).map results := by
  intro k
  induction k with
  | zero =>
    intro i fuel _ _ hstop
    have hi : i ∉ done := by simpa using hstop
    cases fuel with
    | zero => simp [flushFrom]
    | succ fu =>
      have hl : lookupIdx (done.map (fun j => (j, results j))) i = none := by
        rw [lookupIdx_map]
        simp [hi]
      simp [flushFrom, hl]
  | succ k ih =>
    intro i fuel hfuel hrun hstop
    cases fuel with
    | zero => omega
    | succ fu =>
      have hi : i ∈ done := by simpa using hrun 0 (Nat.succ_pos k)
      have hl : lookupIdx (done.map (fun j => (j, results j))) i =
          some (results i) := by
        rw [lookupIdx_map]
        simp [hi]
      have hrec := ih (i + 1) fu (by omega) ?_ ?_
      · simp only [flushFrom, hl, hrec]
        simp [List.range']
      · intro m hm
        have he : i + 1 + m = i + (m + 1) := by omega
        rw [he]
        exact hrun (m + 1) (by omega)
      · have he : i + 1 + k = i + (k + 1) := by omega
        rw [he]
        exact hstop

theorem mem_le_foldr_max (l : List Nat) (x : Nat) (hx : x ∈ l) :
    x ≤ l.foldr max 0 := by
  induction l with
  | nil => cases hx
  | cons a t ih =>
    rcases List.mem_cons.mp hx with rfl | hmem
    · exact le_max_left _ _
    · exact le_trans (ih hmem) (le_max_right _ _)

theorem flushInv_step {R : Type} (results : Nat → R) (done : List Nat)
    (s : FlushState R) (j : Nat) (hinv : FlushInv results done s) (hj : j ∉ done) :
    FlushInv results (j :: done) (onComplete s (j, results j)) := by
  obtain ⟨hbuf, hlow, hnot, happ⟩ := hinv
  have hbuf1 : (j, results j) :: s.buffer =
      (j :: done).map (fun i => (i, results i)) := by
    rw [List.map_cons, hbuf]
  have hex : ∃ m, (s.nextIdx + m) ∉ (j :: done) := by
    refine ⟨(j :: done).foldr max 0 + 1, fun hmem => ?_⟩
    have := mem_le_foldr_max (j :: done) _ hmem
    omega
  have hk : (s.nextIdx + Nat.find hex) ∉ (j :: done) := Nat.find_spec hex
  have hrun : ∀ m, m < Nat.find hex → (s.nextIdx + m) ∈ (j :: done) := by
    intro m hm
    have := Nat.find_min hex hm
    exact not_not.mp this
  have hsub : List.range' s.nextIdx (Nat.find hex) ⊆ (j :: done) := by
    intro x hx
    rw [List.mem_range'_1] at hx
    obtain ⟨h1, h2⟩ := hx
    have he : x = s.nextIdx + (x - s.nextIdx) := by omega
    rw [he]
    exact hrun (x - s.nextIdx) (by omega)
  have hklen : Nat.find hex ≤ (j :: done).length := by
    have h1 : (List.range' s.nextIdx (Nat.find hex)).toFinset ⊆ (j :: done).toFinset := by
      intro x hx
      rw [List.mem_toFinset] at hx ⊢
      exact hsub hx
    have h2 := Finset.card_le_card h1
    rw [List.toFinset_card_of_nodup (List.nodup_range' s.nextIdx (Nat.find hex))] at h2
    rw [List.length_range'] at h2
    exact le_trans h2 (List.toFinset_card_le (j :: done))
  have hflush : flushFrom ((j, results j) :: s.buffer) s.nextIdx
      ((j, results j) :: s.buffer).length =
      (List.range' s.nextIdx (Nat.find hex)).map results := by
    rw [hbuf1]
    refine flushFrom_run results (j :: done) (Nat.find hex) s.nextIdx _ ?_ hrun hk
    rw [List.length_map]
    exact hklen
  refine ⟨hbuf1, ?_, ?_, ?_⟩
  · show ∀ m, m < s.nextIdx + (flushFrom ((j, results j) :: s.buffer) s.nextIdx
      ((j, results j) :: s.buffer).length).length → m ∈ (j :: done)
    rw [hflush, List.length_map, List.length_range']
    intro m hm
    by_cases hmlt : m < s.nextIdx
    · exact List.mem_cons_of_mem j (hlow m hmlt)
    · have he : m = s.nextIdx + (m - s.nextIdx) := by omega
      rw [he]
      exact hrun (m - s.nextIdx) (by omega)
  · show (s.nextIdx + (flushFrom ((j, results j) :: s.buffer) s.nextIdx
      ((j, results j) :: s.buffer).length).length) ∉ (j :: done)
    rw [hflush, List.length_map, List.length_range']
    exact hk
  · show s.appended ++ flushFrom ((j, results j) :: s.buffer) s.nextIdx
      ((j, results j) :: s.buffer).length =
      (List.range (s.nextIdx + (flushFrom ((j, results j) :: s.buffer) s.nextIdx
        ((j, results j) :: s.buffer).length).length)).map results
    rw [hflush, happ, List.length_map, List.length_range']
    rw [← List.map_append]
    congr 1
    rw [List.range_eq_range', List.range_eq_range']
    rw [Nat.add_comm s.nextIdx (Nat.find hex)]
    have hap := List.range'_append_1 0 s.nextIdx (Nat.find hex)
    simpa using hap

theorem flushInv_fold {R : Type} (results : Nat → R) :
    ∀ (rest done : List Nat) (s : FlushState R),
      FlushInv results done s → rest.Nodup → (∀ x ∈ rest, x ∉ done) →
      FlushInv results (rest.reverse ++ done)
        (List.foldl onComplete s (rest.map (fun i => (i, results i)))) := by
  intro rest
  induction rest with
  | nil =>
    intro done s hinv _ _
    simpa using hinv
  | cons j tl ih =>
    intro done s hinv hnd hdisj
    have hj : j ∉ done := hdisj j (List.mem_cons_self j tl)
    have h1 := flushInv_step results done s j hinv hj
    have hnd2 : tl.Nodup := (List.nodup_cons.mp hnd).2
    have hjtl : j ∉ tl := (List.nodup_cons.mp hnd).1
    have hdisj2 : ∀ x ∈ tl, x ∉ (j :: done) := by
      intro x hx
      simp only [List.mem_cons, not_or]
      exact ⟨fun hxj => hjtl (hxj ▸ hx), hdisj x (List.mem_cons_of_mem j hx)⟩
    have h2 := ih (j :: done) (onComplete s (j, results j)) h1 hnd2 hdisj2
    have heq : (j :: tl).reverse ++ done = tl.reverse ++ (j :: done) := by
      simp [List.reverse_cons, List.append_assoc]
    rw [List.map_cons, List.foldl_cons, heq]
    exact h2

/-- C3: for a model step issuing n tool calls with issuance indices
0..n-1, whatever order the executions complete in (any permutation of the
indices), the buffered flush appends the results to history exactly in
issuance-index order. -/
theorem tool_results_issuance_order {R : Type} (n : Nat) (results : Nat → R)
    (order : List Nat) (h : order.Perm (List.range n)) :
    (runFlush (order.map (fun i => (i, results i)))).appended =
      (List.range n).map results := by
  have hnd : order.Nodup := h.nodup_iff.mpr (List.nodup_range n)
  have hmem : ∀ x, x ∈ order ↔ x < n := by
    intro x
    rw [h.mem_iff, List.mem_range]
  have hinv0 : FlushInv results [] ⟨[], 0, []⟩ := by
    refine ⟨rfl, ?_, ?_, rfl⟩
    · intro m hm
      simp at hm
    · simp
  have hfold := flushInv_fold results order [] ⟨[], 0, []⟩ hinv0 hnd
    (by intro x hx; simp)
  rw [List.append_nil] at hfold
  have hrf : runFlush (order.map (fun i => (i, results i))) =
      List.foldl onComplete ⟨[], 0, []⟩ (order.map (fun i => (i, results i))) := rfl
  rw [hrf]
  obtain ⟨hbuf, hlow, hnot, happ⟩ := hfold
  have hA : ∀ m, m < (List.foldl onComplete (⟨[], 0, []⟩ : FlushState R)
      (order.map (fun i => (i, results i)))).nextIdx → m < n := by
    intro m hm
    exact (hmem m).mp (List.mem_reverse.mp (hlow m hm))
  have hB : ¬ ((List.foldl onComplete (⟨[], 0, []⟩ : FlushState R)
      (order.map (fun i => (i, results i)))).nextIdx < n) := by
    intro hlt
    exact hnot (List.mem_reverse.mpr ((hmem _).mpr hlt))
  have hN : (List.foldl onComplete (⟨[], 0, []⟩ : FlushState R)
      (order.map (fun i => (i, results i)))).nextIdx = n := by
    rcases lt_trichotomy (List.foldl onComplete (⟨[], 0, []⟩ : FlushState R)
      (order.map (fun i => (i, results i)))).nextIdx n with h1 | h1 | h1
    · exact absurd h1 hB
    · exact h1
    · exact absurd (hA n h1) (lt_irrefl n)
  rw [happ, hN]

/-- Witness for C3: three tool calls completing in the order 2, 0, 1 still
flush their results in issuance order 0, 1, 2. -/
theorem tool_results_issuance_order_witness :
    ([2, 0, 1].Perm (List.range 3)) ∧
    (runFlush ([2, 0, 1].map (fun i => (i, 10 * i)))).appended =
      (List.range 3).map (fun i => 10 * i) :=
  ⟨by decide, tool_results_issuance_order 3 (fun i => 10 * i) [2, 0, 1] (by decide)⟩

end Codebuff
